import Mathlib

/-
Verification development for the automatic line-detection core of the
fs_viewer repository (src/detection.py and the detected-line navigation
helpers of src/backend.py).

Numbers: the Python code computes with IEEE floats; the embedding models
them as exact rationals (ℚ).  The pipeline divides by a standard
deviation exactly once; since √v is irrational, the post-division samples
are represented exactly in a sign-preserving encoded form explained at
`correlation` below.  Every other step of the source is rational.

The Batteries arithmetic on ℚ is marked irreducible, which only blocks
tactic-level evaluation; we restore semireducibility locally so that
concrete witnesses can be checked by `decide`.
-/

attribute [local semireducible] Rat.add Rat.mul Rat.sub Rat.inv

set_option maxRecDepth 40000

namespace FsViewer

/-! ### Shared numeric primitives (numpy counterparts) -/

/-- The module constant `LINE_WIDTH = 2.6` of src/detection.py. -/
def LINE_WIDTH : ℚ := 13/5

/-- `np.mean` of a possibly empty array: the source relies on the fact that
the mean of an empty slice is NaN, so the embedding returns `none` there;
on a nonempty list it is the exact arithmetic mean. -/
def meanOpt (l : List ℚ) : Option ℚ :=
  if l = [] then none else some (l.sum / l.length)

/-- `np.mean` on an array known to be nonempty (total version used where
the source guarantees nonemptiness). -/
def meanQ (l : List ℚ) : ℚ := l.sum / l.length

/-- The population variance computed by `np.std(l)**2` (ddof = 0):
mean of squared deviations from the mean.  The source only ever compares
a nonnegative quantity `a` against `3 * np.std(l)`; since both sides are
nonnegative this comparison is `a^2 > 9 * popVar l`, which keeps the whole
computation rational. -/
def popVar (l : List ℚ) : ℚ := ((l.map (fun q => (q - meanQ l)^2)).sum) / l.length

/-- `np.searchsorted(grid, v, side='left')`: for a sorted grid this is the
number of entries strictly below `v` (the first insertion point). -/
def ssLeft (grid : List ℚ) (v : ℚ) : ℕ := grid.countP (fun g => decide (g < v))

/-- `np.searchsorted(grid, v, side='right')`: for a sorted grid this is the
number of entries at or below `v` (the last insertion point). -/
def ssRight (grid : List ℚ) (v : ℚ) : ℕ := grid.countP (fun g => decide (g ≤ v))

/-- `np.convolve(a, v, mode='full')`: entry `k` is `Σ_j a[j] * v[k - j]`,
for `k = 0, …, len a + len v - 2`. -/
def npConvolveFull (a v : List ℚ) : List ℚ :=
  (List.range (a.length + v.length - 1)).map fun k =>
    ((List.range a.length).map fun j =>
      a.getD j 0 * (if j ≤ k then v.getD (k - j) 0 else 0)).sum

/-- `np.correlate(a, v, mode='same')`, via the identity
`correlate(a, v) = convolve(a, v[::-1])` for real arrays, slicing the
central `max (len a) (len v)` entries of the full convolution starting at
`(min (len a) (len v) - 1) / 2`. -/
def npCorrelateSame (a v : List ℚ) : List ℚ :=
  ((npConvolveFull a v.reverse).drop ((Nat.min a.length v.length - 1) / 2)).take
    (Nat.max a.length v.length)

/-- `scipy.signal.lfilter(b, a, x)`: the causal direct-form IIR recursion
`y[n] = (Σ_k b[k]·x[n-k] - Σ_{k≥1} a[k]·y[n-k]) / a[0]`, processed one
input sample at a time.  `xr`/`yr` hold the already-seen inputs/outputs
most recent first. -/
def lfilterGo (b a : List ℚ) (xr yr : List ℚ) : List ℚ → List ℚ
  | [] => yr.reverse
  | xi :: rest =>
    lfilterGo b a (xi :: xr)
      (((((List.range b.length).map fun k => b.getD k 0 * (xi :: xr).getD k 0).sum
          - ((List.range (a.length - 1)).map fun k =>
              a.getD (k + 1) 0 * yr.getD k 0).sum)
        / a.getD 0 0) :: yr) rest

/-- `scipy.signal.lfilter(b, a, x)`. -/
def lfilter (b a x : List ℚ) : List ℚ := lfilterGo b a [] [] x

/-! ### The Correlator (`correlation` in src/detection.py)

The source computes
```
_corr = np.correlate(another_y, model_y, 'same')
_corr -= np.mean(_corr)
_corr /= np.std(_corr)
_corr = butter_bandpass_filter(_corr, 0.005 * fs, np.inf, order=5)
```
for nonempty `another_y`, and returns an empty array otherwise.

Two modelling decisions, both explained here for the reader:

* The Butterworth coefficients produced by `scipy.signal.butter` are
  transcendental constants; the filtering step `lfilter(b, a, ·)` is
  therefore embedded with the coefficient arrays `b`, `a` as parameters.
  The branch structure of `butter_bandpass` (which filter family is
  selected, and when it raises) is embedded separately and exactly in
  `butterBandpassKind` below.

* The division by `np.std(_corr) = √(popVar raw)` is irrational.  Each
  real output sample `t` is therefore encoded by the strictly monotone
  injection `t ↦ t·|t|`: writing `g` for the (rational) sample of
  `lfilter b a (raw - mean)` — the causal filter is linear, proved in
  `lfilter_map_mul` below, so it commutes with the constant factor
  `1/√v` — the true output sample is `t = g/√v` and its encoding is
  `t·|t| = g·|g| / v`, a rational number computed exactly here.
  When `popVar raw = 0` the source computes `0/0` sample-wise, i.e. a
  NaN-filled array with no finite value; the embedding returns `none` for
  that case (this models IEEE division, not a guard in the source — the
  source has no such branch). -/
def correlation (b a : List ℚ) (model_y x : List ℚ) (another_y : List ℚ) :
    Option (List ℚ) :=
  if another_y = [] then some []
  else if popVar (npCorrelateSame another_y model_y) = 0 then none
  else some ((lfilter b a ((npCorrelateSame another_y model_y).map
      (fun q => q - meanQ (npCorrelateSame another_y model_y)))).map
      (fun g => g * |g| / popVar (npCorrelateSame another_y model_y)))

/-- The filter family selected by the inner `butter_bandpass` closure of
src/detection.py, lines 46-57, together with scipy's `btype` argument;
the filter order is 5 throughout (`order=5` at both call sites). -/
inductive FilterKind where
  | bandpass (low high : ℚ)
  | highpass (low : ℚ)
  | lowpass (high : ℚ)
deriving DecidableEq

instance : DecidableEq (Except Unit FilterKind) := fun a b =>
  match a, b with
  | .ok a, .ok b => decidable_of_iff (a = b) (by simp)
  | .error a, .error b => decidable_of_iff (a = b) (by simp)
  | .ok _, .error _ => isFalse (by simp)
  | .error _, .ok _ => isFalse (by simp)

/-- `butter_bandpass` of src/detection.py: normalizes the cutoffs by the
Nyquist frequency `nyq = 0.5 * fs` and dispatches on the *normalized*
values versus `0` and (unnormalized) `fs`; the fall-through raises
`ValueError`, modelled as `Except.error ()`. -/
def butterBandpassKind (fs low_cut high_cut : ℚ) : Except Unit FilterKind :=
  if 0 < low_cut / ((1/2) * fs) ∧ high_cut / ((1/2) * fs) < fs then
    .ok (.bandpass (low_cut / ((1/2) * fs)) (high_cut / ((1/2) * fs)))
  else if 0 < low_cut / ((1/2) * fs) ∧ fs ≤ high_cut / ((1/2) * fs) then
    .ok (.highpass (low_cut / ((1/2) * fs)))
  else if low_cut / ((1/2) * fs) ≤ 0 ∧ high_cut / ((1/2) * fs) < fs then
    .ok (.lowpass (high_cut / ((1/2) * fs)))
  else .error ()

/-! ### The PeakExtractor (`positions` in src/detection.py)

`positions(data_x, data_y)` builds two auxiliary arrays (`core`,
`anti_core`), thresholds them into a boolean mask, cleans the mask with
`remove_spikes` / `binary_dilation(iterations=4)` / `remove_spikes`, and
extracts one peak per pair of consecutive mask transitions. -/

/-- numpy broadcasting for a binary elementwise operation on 1-D arrays:
equal lengths operate elementwise, a length-1 operand broadcasts, and any
other shape combination raises (`Except.error`). -/
def npBroadcast (f : ℚ → ℚ → ℚ) (u v : List ℚ) : Except Unit (List ℚ) :=
  if u.length = v.length then .ok (List.zipWith f u v)
  else if v.length = 1 then .ok (u.map (fun q => f q (v.getD 0 0)))
  else if u.length = 1 then .ok (v.map (fun q => f (u.getD 0 0) q))
  else .error ()

/-- The slice indices of `fragment`/`fragments` (src/detection.py lines
24-32): `i = searchsorted(grid, center - half_width)`,
`j = searchsorted(grid, center)`, `k = 2j - i`, followed by the two
conditional swaps of the source (`k` is computed from the original `i`,
`j`; the second swap compares the possibly swapped `j` with it).  `k` is
an `Int` in general; it is clamped by `toNat` at slice time, and in every
call `positions` makes, `i ≤ j ≤ k` so neither swap fires. -/
def fragsIdx (grid : List ℚ) (center half_width : ℚ) : ℕ × ℕ × ℕ :=
  let i0 := ssLeft grid (center - half_width)
  let j0 := ssLeft grid center
  let k0 : ℤ := 2 * (j0 : ℤ) - (i0 : ℤ)
  let p1 := if (j0 : ℤ) < (i0 : ℤ) then (j0, i0) else (i0, j0)
  let p2 := if k0 < (p1.2 : ℤ) then (k0.toNat, p1.2) else (p1.2, k0.toNat)
  (p1.1, p2.1, p2.2)

/-- `fragments(sequence, grid, center, half_width)`:
`(sequence[i:j], sequence[j:k])` with the indices above (python slices
truncate at the array end, as `drop`/`take` do). -/
def fragmentsQ (sequence grid : List ℚ) (center half_width : ℚ) :
    List ℚ × List ℚ :=
  let ijk := fragsIdx grid center half_width
  ((sequence.drop ijk.1).take (ijk.2.1 - ijk.1),
   (sequence.drop ijk.2.1).take (ijk.2.2 - ijk.2.1))

/-- One iteration of the `for f in range(...)` loop of `positions`
(lines 79-89): produces the pair `(core[f], anti_core[f])`, where `none`
is the explicit `np.nan` of the first two branches or the NaN mean of an
empty difference; a broadcasting failure in
`signal_fragments[0] - signal_fragments[1][::-1]` raises. -/
def coreAt (data_x data_y : List ℚ) (f : ℕ) : Except Unit (Option ℚ × Option ℚ) :=
  let n := data_x.length
  if data_x.getD f 0 - data_x.getD 0 0 ≤ LINE_WIDTH then .ok (none, none)
  else if data_x.getD (n - 1) 0 - data_x.getD f 0 ≤ LINE_WIDTH then .ok (none, none)
  else
    let fr := fragmentsQ data_y data_x (data_x.getD f 0) ((1/2) * LINE_WIDTH)
    (npBroadcast (· - ·) fr.1 fr.2.reverse).bind fun d =>
      (npBroadcast (· + ·) fr.1 fr.2.reverse).map fun s =>
        (meanOpt d, meanOpt s)

/-- Collects the loop iterations of `positions`: the `core` and
`anti_core` entries for the given index list, propagating a raised
exception. -/
def coreListsGo (data_x data_y : List ℚ) :
    List ℕ → Except Unit (List (Option ℚ) × List (Option ℚ))
  | [] => .ok ([], [])
  | f :: fs =>
    (coreAt data_x data_y f).bind fun c =>
      (coreListsGo data_x data_y fs).map fun rest => (c.1 :: rest.1, c.2 :: rest.2)

/-- The full `core`/`anti_core` arrays (index `f` runs over
`range(data_x.shape[0])`). -/
def coreLists (data_x data_y : List ℚ) :
    Except Unit (List (Option ℚ) × List (Option ℚ)) :=
  coreListsGo data_x data_y (List.range data_x.length)

/-- The raw boolean mask (lines 95-99): with
`a = np.abs(core[~isnan])` and `b = np.abs(anti_core[~isnan])`, the flag
is `a > 3*np.std(a) and b < a`.  Both sides of the first comparison are
nonnegative, so it is evaluated as `a² > 9 * popVar a`, keeping the test
rational.  When the filtered array is empty, `np.std` is NaN and the
comparison is an empty array — the `zipWith` is empty likewise. -/
def matchRaw (core anti : List (Option ℚ)) : List Bool :=
  let a := (core.filterMap id).map (fun q => |q|)
  let b := (anti.filterMap id).map (fun q => |q|)
  let v := popVar a
  List.zipWith (fun ai bi => decide (ai^2 > 9 * v) && decide (bi < ai)) a b

/-- Lines 100-102: pad the mask back to the grid length with `False` on
both sides, `floor((n-m)/2)` in front and `ceil((n-m)/2)` behind. -/
def padMask (n : ℕ) (m : List Bool) : List Bool :=
  List.replicate ((n - m.length) / 2) false ++ m ++
    List.replicate ((n - m.length + 1) / 2) false

/-- `remove_spikes` (lines 35-40), for a boolean array.  `np.roll` wraps
around, so the neighbours are circular: with `r = s[(i+1) % len]` and
`l = s[(i-1) % len]`, sample `i` is replaced by `r` whenever
`s[i] ≠ r ∧ l = r`; the replacement values are all computed from the
original array before any assignment. -/
def removeSpikes (s : List Bool) : List Bool :=
  (List.range s.length).map fun i =>
    if s.getD i false ≠ s.getD ((i + 1) % s.length) false ∧
        s.getD ((i + s.length - 1) % s.length) false = s.getD ((i + 1) % s.length) false
    then s.getD ((i + 1) % s.length) false
    else s.getD i false

/-- One step of `scipy.ndimage.binary_dilation` with the default 1-D
structuring element (one neighbour on each side) and zero border. -/
def dilate (s : List Bool) : List Bool :=
  (List.range s.length).map fun i =>
    (decide (0 < i) && s.getD (i - 1) false) || s.getD i false ||
      s.getD (i + 1) false

/-- Lines 108-110: the mask cleaning actually performed by `positions`:
`remove_spikes`, then `binary_dilation(·, iterations=4)`, then
`remove_spikes` again. -/
def cleanedMask (m : List Bool) : List Bool :=
  removeSpikes (dilate^[4] (removeSpikes m))

/-- The transition indices `np.argwhere(np.diff(match))` (line 111):
positions `i` with `match[i] ≠ match[i+1]`. -/
def transitionsOf (m : List Bool) : List ℕ :=
  (List.range (m.length - 1)).filter fun i =>
    decide (m.getD i false ≠ m.getD (i + 1) false)

/-- `.reshape(-1, 2)` on the transition list: consecutive indices are
paired up; an odd count raises `ValueError` (`none`). -/
def chunkPairs : List ℕ → Option (List (ℕ × ℕ))
  | [] => some []
  | [_] => none
  | a :: b :: rest => (chunkPairs rest).map (fun prs => (a, b) :: prs)

/-- `np.argmax`: index of the first occurrence of the maximum. -/
def argmaxL : List ℚ → ℕ
  | [] => 0
  | q :: l => let r := argmaxL l; if l.getD r q ≤ q then 0 else r + 1

/-- Line 112, for one transition pair `(i0, i1)`:
`i0 + np.argmax(data_y[i0:i1])`. -/
def peakAt (data_y : List ℚ) (pr : ℕ × ℕ) : ℕ :=
  pr.1 + argmaxL ((data_y.drop pr.1).take (pr.2 - pr.1))

/-- The cleaned boolean mask `positions` derives from its input before
island extraction (`none` when the `core` loop raises). -/
def detectionMask (data_x data_y : List ℚ) : Option (List Bool) :=
  (coreLists data_x data_y).toOption.map fun ca =>
    cleanedMask (padMask data_x.length (matchRaw ca.1 ca.2))

/-- `positions` up to the island pairs: `some pairs` when the function
reaches line 112 with transition pairs `pairs`, `none` when it raises
(broadcast failure inside the loop, or an odd transition count at the
reshape), and `some []` for the empty-input early return. -/
def positionsPairs (data_x data_y : List ℚ) : Option (List (ℕ × ℕ)) :=
  if data_x.length = 0 ∨ data_y.length = 0 then some []
  else (detectionMask data_x data_y).bind fun m => chunkPairs (transitionsOf m)

/-- `positions(data_x, data_y)` (src/detection.py lines 72-113): `none`
models an uncaught exception, `some peaks` the returned index array. -/
def positions (data_x data_y : List ℚ) : Option (List ℕ) :=
  (positionsPairs data_x data_y).map (fun prs => prs.map (peakAt data_y))

/-! ### The threshold-driven peak extractor (`detection.peaks_positions`)

`find_lines` in src/backend.py (lines 709-710) calls
`detection.peaks_positions(x, correlation(...), threshold=1.0/threshold)`,
but src/detection.py does not define `peaks_positions` (it only defines
the threshold-free `positions` above).  The function is therefore
modelled from the spec, which is the only available description. -/

/-- One step of binary erosion with the same 1-D structuring element (one
neighbour on each side) and zero border: a sample survives iff it and
both neighbours are set. -/
def erode (s : List Bool) : List Bool :=
  (List.range s.length).map fun i =>
    (decide (0 < i) && s.getD (i - 1) false) && s.getD i false &&
      s.getD (i + 1) false

/-- The maximal contiguous runs of `true` in a mask — the *islands* of the
spec — as half-open index intervals `[start, stop)`, in index order.
`i` is the index of the head of the remaining list, `st` the start of the
currently open run, if any. -/
def trueRunsGo : List Bool → ℕ → Option ℕ → List (ℕ × ℕ)
  | [], _, none => []
  | [], i, some st => [(st, i)]
  | b :: rest, i, none =>
      if b then trueRunsGo rest (i + 1) (some i) else trueRunsGo rest (i + 1) none
  | b :: rest, i, some st =>
      if b then trueRunsGo rest (i + 1) (some st)
      else (st, i) :: trueRunsGo rest (i + 1) none

/-- The islands (maximal `true` runs) of a mask. -/
def trueRuns (m : List Bool) : List (ℕ × ℕ) := trueRunsGo m 0 none

/-- Modelled from the spec: the centered rolling population variance of
`y` over a window of `2*hw + 1` samples; samples within `hw` of either
edge have no rolling statistic (`none`, the spec's NaN-as-missing).  The
spec prescribes a rolling standard deviation; the variance is its square
and is rational, and every use below compares it with an order-statistic
quantile of the same numbers, which commutes with the monotone map √. -/
def rollingVarAt (y : List ℚ) (hw i : ℕ) : Option ℚ :=
  if hw ≤ i ∧ i + hw < y.length then
    some (popVar ((y.drop (i - hw)).take (2 * hw + 1)))
  else none

/-- Modelled from the spec: the `level` quantile of a value list as an
order statistic — entry `⌊level * n⌋` of the ascending sort, clamped to
the valid index range (the spec fixes the level formula `1 - 1/threshold`
but not an interpolation method; the order-statistic choice keeps the
computation rational and is monotone in `level`). -/
def quantileOS (l : List ℚ) (level : ℚ) : ℚ :=
  (l.insertionSort (· ≤ ·)).getD
    (Int.toNat (min ((l.length : ℤ) - 1) (max 0 ⌊level * (l.length : ℚ)⌋))) 0

/-- Modelled from the spec: the sequence of rolling variances of
`peaks_positions`. -/
def specRollingVars (y : List ℚ) (hw : ℕ) : List (Option ℚ) :=
  (List.range y.length).map (rollingVarAt y hw)

/-- Modelled from the spec: the `1 - 1/p` quantile of the defined rolling
variances. -/
def specQuantile (y : List ℚ) (hw : ℕ) (p : ℚ) : ℚ :=
  quantileOS ((specRollingVars y hw).filterMap id) (1 - 1/p)

/-- Modelled from the spec: the raw quantile-exceedance mask of
`peaks_positions` — flag every sample whose rolling variance is defined
and at or above the `1 - 1/p` order-statistic quantile of the defined
rolling variances. -/
def specRawMask (y : List ℚ) (hw : ℕ) (p : ℚ) : List Bool :=
  (specRollingVars y hw).map fun vo =>
    match vo with
    | none => false
    | some v => decide (specQuantile y hw p ≤ v)

/-- Modelled from the spec: the half-window (in samples) derived from the
grid step `Δx`: the window width is `LINE_WIDTH / Δx` rounded to the
nearest integer, and the window spans `hw` samples on each side. -/
def specHalfWindow (x : List ℚ) : ℕ :=
  (round (LINE_WIDTH / (x.getD 1 0 - x.getD 0 0)) : ℤ).toNat / 2

/-- Modelled from the spec: force the first and last mask samples to
`false` (boundary islands are never trusted). -/
def setEdgesFalse (m : List Bool) : List Bool :=
  (m.set 0 false).set (m.length - 1) false

/-- The mask-cleaning stage exactly as the spec words it (claim C5):
dilate `N` times, erode `N + 1` times, dilate once, with `N = 8` at the
standard call site.  Stated from the spec so it can be compared with the
cleaning `positions` actually performs (`cleanedMask`). -/
def specCleanMask (m : List Bool) : List Bool :=
  dilate (erode^[9] (dilate^[8] m))

/-- Modelled from the spec: `detection.peaks_positions(x, y, threshold=p)`,
which src/backend.py calls but src/detection.py does not define.
Steps per spec §4.2: length < 2 → empty; centered rolling std over a
`LINE_WIDTH/Δx`-sample window; flag samples at or above the `1 - 1/p`
quantile of the defined rolling stds; clean with dilation ×8, erosion ×9,
dilation ×1; force the mask edges false; per island keep the argmax of
the signal, rejecting islands whose argmax falls on the island's first or
last sample; return the surviving indices in island order. -/
def peaks_positions (x y : List ℚ) (p : ℚ) : List ℕ :=
  if x.length < 2 ∨ y.length < 2 then []
  else
    let mask := setEdgesFalse (specCleanMask (specRawMask y (specHalfWindow x) p))
    (trueRuns mask).filterMap fun pr =>
      let am := argmaxL ((y.drop pr.1).take (pr.2 - pr.1))
      if am = 0 ∨ am = pr.2 - pr.1 - 1 then none else some (pr.1 + am)

/-- The call `find_lines` makes (src/backend.py line 710): the
caller-supplied threshold is inverted, `threshold=1.0 / threshold`. -/
def findLinesCall (x y : List ℚ) (threshold : ℚ) : List ℕ :=
  peaks_positions x y (1 / threshold)

/-! ### Found-line navigation (`prev_found_line` / `next_found_line`,
src/backend.py lines 718-746)

`self.found_lines` is modelled as the list of per-channel stored peak
frequency arrays (`line.get_xdata()`).  `np.nan` entries of
`prev_line_freq` are modelled as `none` and dropped, exactly as the
`~np.isnan` filter does. -/

/-- One step of the `np.argmin`-based selection below. -/
def selMinStep (f : ℚ → ℚ) (acc : Option ℚ) (c : ℚ) : Option ℚ :=
  match acc with
  | none => some c
  | some b => if f c < f b then some c else some b

/-- `np.argmin`-based selection: the element of `l` minimizing `f`,
taking the first minimizer on ties (as `np.argmin` does); `none` on an
empty list. -/
def selectMinBy (f : ℚ → ℚ) (l : List ℚ) : Option ℚ :=
  l.foldl (selMinStep f) none

/-- The per-channel candidate of `prev_found_line`: with
`i = searchsorted(data, init, side='right') - 2` (an integer, possibly
negative), the entry `data[i]` is kept when `0 ≤ i < len(data)` and
`data[i] ≠ init`, and is NaN otherwise. -/
def prevCandidate (data : List ℚ) (init : ℚ) : Option ℚ :=
  if 0 ≤ (ssRight data init : ℤ) - 2 ∧ (ssRight data init : ℤ) - 2 < (data.length : ℤ) ∧
      data.getD ((ssRight data init : ℤ) - 2).toNat 0 ≠ init then
    some (data.getD ((ssRight data init : ℤ) - 2).toNat 0)
  else none

/-- The per-channel candidate of `next_found_line`: with
`i = searchsorted(data, init, side='left') + 1`, the entry `data[i]` is
kept when `i < len(data)` and `data[i] ≠ init`. -/
def nextCandidate (data : List ℚ) (init : ℚ) : Option ℚ :=
  if ssLeft data init + 1 < data.length ∧ data.getD (ssLeft data init + 1) 0 ≠ init then
    some (data.getD (ssLeft data init + 1) 0)
  else none

/-- `prev_found_line(init_frequency)`: gather the per-channel candidates,
drop the NaNs, and return the candidate minimizing
`init_frequency - candidate` (`np.argmin`), or `init_frequency` when no
candidate survives. -/
def prev_found_line (lines : List (List ℚ)) (init : ℚ) : ℚ :=
  match selectMinBy (fun c => init - c) (lines.filterMap (fun d => prevCandidate d init)) with
  | some v => v
  | none => init

/-- `next_found_line(init_frequency)`: symmetric, minimizing
`candidate - init_frequency`. -/
def next_found_line (lines : List (List ℚ)) (init : ℚ) : ℚ :=
  match selectMinBy (fun c => c - init) (lines.filterMap (fun d => nextCandidate d init)) with
  | some v => v
  | none => init

/-! ### Concrete inputs used by witnesses and counterexamples -/

/-- A strictly increasing 40-point unit-step grid. -/
def gridA : List ℚ := (List.range 40).map (fun i => (i : ℚ))

/-- A signal on `gridA`: an isolated sample of height 2 at index 15 and a
sharp alternating wiggle `1, -1, 1` at indices 18-20.  The wiggle is the
only part that passes the `core`/`anti_core` test, producing the mask
island 15-24 after dilation, whose slice maximum is the isolated sample
at index 15 — the island's first sample. -/
def signalA : List ℚ := (List.range 40).map fun i =>
  if i = 15 then 2 else if i = 18 then 1 else if i = 19 then -1
  else if i = 20 then 1 else 0

/-- A strictly increasing 43-point unit-step grid. -/
def gridB : List ℚ := (List.range 43).map (fun i => (i : ℚ))

/-- A signal on `gridB` with tall spikes at indices 12 and 32 and a small
spike at 22: at the stricter caller threshold `6/41` only the tall spikes
are flagged and two islands survive; at the looser `7/41` the small spike
is flagged too, the morphological closing merges everything into a single
island, and only one peak is returned. -/
def signalB : List ℚ := (List.range 43).map fun i =>
  if i = 12 then 3 else if i = 22 then 1 else if i = 32 then 3 else 0

/-- A 30-sample mask holding one island of three set samples. -/
def maskA : List Bool := (List.range 30).map (fun i => decide (10 ≤ i ∧ i ≤ 12))

/-! ### Structural lemmas about the peak-extraction stage -/

lemma length_removeSpikes (s : List Bool) : (removeSpikes s).length = s.length := by
  simp [removeSpikes]

lemma length_dilate (s : List Bool) : (dilate s).length = s.length := by
  simp [dilate]

lemma length_dilate_iter (k : ℕ) (s : List Bool) : (dilate^[k] s).length = s.length := by
  induction k generalizing s with
  | zero => rfl
  | succ k ih => rw [Function.iterate_succ_apply, ih, length_dilate]

lemma length_cleanedMask (m : List Bool) : (cleanedMask m).length = m.length := by
  rw [cleanedMask, length_removeSpikes, length_dilate_iter, length_removeSpikes]

lemma length_padMask (n : ℕ) (m : List Bool) (h : m.length ≤ n) :
    (padMask n m).length = n := by
  simp only [padMask, List.length_append, List.length_replicate]
  omega

lemma coreListsGo_lengths (x y : List ℚ) :
    ∀ (fs : List ℕ) ca, coreListsGo x y fs = .ok ca →
      ca.1.length = fs.length ∧ ca.2.length = fs.length := by
  intro fs
  induction fs with
  | nil =>
    intro ca h
    simp only [coreListsGo, Except.ok.injEq] at h
    subst h; simp
  | cons f fs ih =>
    intro ca h
    simp only [coreListsGo] at h
    cases hc : coreAt x y f with
    | error e => rw [hc] at h; simp [Except.bind] at h
    | ok c =>
      rw [hc] at h
      cases hr : coreListsGo x y fs with
      | error e => rw [hr] at h; simp [Except.bind, Except.map] at h
      | ok rest =>
        rw [hr] at h
        simp only [Except.bind, Except.map, Except.ok.injEq] at h
        subst h
        have := ih rest hr
        simp [this.1, this.2]

lemma length_matchRaw_le (core anti : List (Option ℚ)) :
    (matchRaw core anti).length ≤ core.length := by
  unfold matchRaw
  rw [List.length_zipWith]
  refine le_trans (min_le_left _ _) ?_
  rw [List.length_map]
  exact List.length_filterMap_le _ _

lemma transitionsOf_pairwise (m : List Bool) : (transitionsOf m).Pairwise (· < ·) :=
  (List.pairwise_lt_range _).filter _

lemma transitionsOf_bound (m : List Bool) : ∀ t ∈ transitionsOf m, t + 1 < m.length := by
  intro t ht
  have := List.mem_range.mp (List.mem_of_mem_filter ht)
  omega

/-- Soundness of the `.reshape(-1, 2)` pairing: when the index list is
strictly ascending and bounded, so are the pairs, with consecutive pairs
strictly separated. -/
lemma chunkPairs_facts (B : ℕ) : ∀ (l : List ℕ) (prs : List (ℕ × ℕ)),
    chunkPairs l = some prs → l.Chain' (· < ·) → (∀ u ∈ l, u + 1 < B) →
    (∀ pr ∈ prs, pr.1 < pr.2 ∧ pr.2 + 1 < B) ∧ prs.Chain' (fun p q => p.2 < q.1)
  | [], prs, h, _, _ => by
    simp only [chunkPairs, Option.some.injEq] at h
    subst h; simp
  | [_], prs, h, _, _ => by simp [chunkPairs] at h
  | a :: b :: rest, prs, h, hch, hb => by
    simp only [chunkPairs] at h
    obtain ⟨prs1, hprs1, rfl⟩ := Option.map_eq_some'.mp h
    have hab : a < b := (List.chain'_cons.mp hch).1
    have hch2 : List.Chain' (· < ·) (b :: rest) := (List.chain'_cons.mp hch).2
    have ih := chunkPairs_facts B rest prs1 hprs1 hch2.tail
      (fun u hu => hb u (by simp [hu]))
    refine ⟨?_, ?_⟩
    · intro pr hpr
      rcases List.mem_cons.mp hpr with rfl | hpr1
      · exact ⟨hab, hb b (by simp)⟩
      · exact ih.1 pr hpr1
    · rcases rest with _ | ⟨c, _ | ⟨d, r⟩⟩
      · simp only [chunkPairs, Option.some.injEq] at hprs1
        subst hprs1; simp
      · simp [chunkPairs] at hprs1
      · simp only [chunkPairs] at hprs1
        obtain ⟨tl, _, rfl⟩ := Option.map_eq_some'.mp hprs1
        have hbc : b < c := (List.chain'_cons.mp hch2).1
        exact List.chain'_cons.mpr ⟨hbc, ih.2⟩

lemma argmaxL_lt_length : ∀ (l : List ℚ), l ≠ [] → argmaxL l < l.length
  | [], h => absurd rfl h
  | q :: l, _ => by
    rw [argmaxL]
    cases l with
    | nil => simp [argmaxL]
    | cons b bs =>
      have ih := argmaxL_lt_length (b :: bs) (by simp)
      split
      · simp
      · simpa using Nat.succ_lt_succ ih

lemma peakAt_bounds (y : List ℚ) (pr : ℕ × ℕ) (h1 : pr.1 < pr.2) (h2 : pr.1 < y.length) :
    pr.1 ≤ peakAt y pr ∧ peakAt y pr < pr.2 ∧ peakAt y pr < y.length := by
  have hlen : ((y.drop pr.1).take (pr.2 - pr.1)).length
      = min (pr.2 - pr.1) (y.length - pr.1) := by
    simp [List.length_take, List.length_drop]
  have hne : (y.drop pr.1).take (pr.2 - pr.1) ≠ [] := by
    rw [← List.length_pos, hlen]; omega
  have ham := argmaxL_lt_length _ hne
  rw [hlen] at ham
  unfold peakAt
  omega

/-- The core structural fact about `positions`: the transition pairs it
extracts are ordered, strictly separated, and bounded by the grid
length. -/
lemma positionsPairs_spec (x y : List ℚ) (prs : List (ℕ × ℕ))
    (h : positionsPairs x y = some prs) :
    (∀ pr ∈ prs, pr.1 < pr.2 ∧ pr.2 + 1 < x.length) ∧
    prs.Chain' (fun p q => p.2 < q.1) := by
  unfold positionsPairs at h
  split at h
  · injection h with h
    subst h
    simp
  · obtain ⟨m, hm, hchunk⟩ := Option.bind_eq_some.mp h
    have hmlen : m.length = x.length := by
      unfold detectionMask at hm
      cases hcl : coreLists x y with
      | error e => rw [hcl] at hm; simp [Except.toOption] at hm
      | ok ca =>
        rw [hcl] at hm
        simp only [Except.toOption, Option.map_some', Option.some.injEq] at hm
        subst hm
        have hlen1 : ca.1.length = x.length := by
          have h1 := (coreListsGo_lengths x y (List.range x.length) ca hcl).1
          simpa using h1
        rw [length_cleanedMask, length_padMask]
        exact le_trans (length_matchRaw_le _ _) (le_of_eq hlen1)
    have hchain : (transitionsOf m).Chain' (· < ·) := (transitionsOf_pairwise m).chain'
    exact chunkPairs_facts x.length _ prs hchunk hchain
      (fun u hu => hmlen ▸ transitionsOf_bound m u hu)

lemma getD_map_range (g : ℕ → Bool) (n i : ℕ) (h : i < n) :
    ((List.range n).map g).getD i false = g i := by
  rw [List.getD_eq_getElem _ _ (by simpa using h), List.getElem_map, List.getElem_range]

lemma dilate_getD (s : List Bool) (k : ℕ) (hk : k < s.length) :
    (dilate s).getD k false =
      ((decide (0 < k) && s.getD (k - 1) false) || s.getD k false ||
        s.getD (k + 1) false) := by
  unfold dilate
  exact getD_map_range _ _ _ hk

lemma removeSpikes_getD (s : List Bool) (i : ℕ) (hi : i < s.length) :
    (removeSpikes s).getD i false =
      if s.getD i false ≠ s.getD ((i + 1) % s.length) false ∧
          s.getD ((i + s.length - 1) % s.length) false = s.getD ((i + 1) % s.length) false
      then s.getD ((i + 1) % s.length) false
      else s.getD i false := by
  unfold removeSpikes
  exact getD_map_range _ _ _ hi

/-- On a dilated mask, `remove_spikes` never clears a set sample: a set
sample with both circular neighbours clear cannot occur in the image of
`dilate`. -/
lemma removeSpikes_dilate_getD (s : List Bool) (i : ℕ)
    (h : (dilate s).getD i false = true) :
    (removeSpikes (dilate s)).getD i false = true := by
  have hlen : (dilate s).length = s.length := length_dilate s
  have hi : i < (dilate s).length := by
    by_contra hge
    rw [List.getD_eq_default _ _ (le_of_not_lt hge)] at h
    exact Bool.false_ne_true h
  have hin : i < s.length := by omega
  have hnpos : 0 < s.length := by omega
  rw [removeSpikes_getD (dilate s) i hi]
  split
  case isFalse => exact h
  case isTrue hcond =>
    exfalso
    obtain ⟨hne, hlr⟩ := hcond
    rw [h] at hne
    have hr : (dilate s).getD ((i + 1) % (dilate s).length) false = false := by
      cases hb : (dilate s).getD ((i + 1) % (dilate s).length) false
      · rfl
      · exact absurd hb.symm hne
    rw [hr] at hlr
    rw [hlen] at hr hlr
    rw [dilate_getD s i hin] at h
    rcases Nat.lt_or_ge (i + 1) s.length with hi1 | hi1
    · -- interior case: the right neighbour is really `i + 1`
      rw [Nat.mod_eq_of_lt hi1, dilate_getD s (i + 1) hi1] at hr
      simp only [Bool.or_eq_false_iff] at hr
      obtain ⟨⟨h1, h2⟩, h3⟩ := hr
      have h1q : s.getD i false = false := by
        have hd : decide (0 < i + 1) = true := by simp
        rwa [hd, Bool.true_and] at h1
      rw [h1q, h2] at h
      simp only [Bool.or_false, Bool.and_eq_true, decide_eq_true_eq] at h
      obtain ⟨hipos, hprev⟩ := h
      have hmod : (i + s.length - 1) % s.length = i - 1 := by
        have h0 : i + s.length - 1 = s.length + (i - 1) := by omega
        rw [h0, Nat.add_mod_left, Nat.mod_eq_of_lt (by omega)]
      rw [hmod, dilate_getD s (i - 1) (by omega)] at hlr
      simp only [Bool.or_eq_false_iff] at hlr
      rw [hlr.1.2] at hprev
      exact Bool.false_ne_true hprev
    · -- boundary case: `i` is the last sample, the right neighbour wraps to 0
      have hmod0 : (i + 1) % s.length = 0 := by
        rw [show i + 1 = s.length by omega, Nat.mod_self]
      rw [hmod0, dilate_getD s 0 hnpos] at hr
      simp only [Bool.or_eq_false_iff] at hr
      obtain ⟨⟨_, hs0⟩, hs1⟩ := hr
      rcases Nat.lt_or_ge s.length 2 with hn | hn
      · -- a single-sample mask: the right neighbour is the sample itself
        have hi0 : i = 0 := by omega
        rw [hi0] at h
        rw [hs0, hs1] at h
        simp at h
      · -- the last sample of a mask of length at least 2
        have hmod2 : (i + s.length - 1) % s.length = s.length - 2 := by
          have h0 : i + s.length - 1 = s.length + (s.length - 2) := by omega
          rw [h0, Nat.add_mod_left, Nat.mod_eq_of_lt (by omega)]
        rw [hmod2, dilate_getD s (s.length - 2) (by omega)] at hlr
        simp only [Bool.or_eq_false_iff] at hlr
        obtain ⟨⟨_, hB1⟩, hB2⟩ := hlr
        have hsn : s.getD (i + 1) false = false :=
          List.getD_eq_default _ _ (by omega)
        have hidx : i - 1 = s.length - 2 := by omega
        have hidx2 : s.length - 2 + 1 = i := by omega
        rw [hidx2] at hB2
        rw [hidx, hB1, hB2, hsn] at h
        simp at h

lemma chain'_map_peakAt (y : List ℚ) : ∀ (prs : List (ℕ × ℕ)),
    prs.Chain' (fun p q => p.2 < q.1) → (∀ pr ∈ prs, peakAt y pr < pr.2) →
    (prs.map (peakAt y)).Chain' (· < ·)
  | [], _, _ => by simp
  | [_], _, _ => by simp
  | p :: q :: rest, hch, hbd => by
    rw [List.map_cons, List.map_cons, List.chain'_cons]
    refine ⟨?_, ?_⟩
    · have h1 : peakAt y p < p.2 := hbd p (by simp)
      have h2 : p.2 < q.1 := (List.chain'_cons.mp hch).1
      have h3 : q.1 ≤ peakAt y q := Nat.le_add_right _ _
      omega
    · rw [← List.map_cons]
      exact chain'_map_peakAt y (q :: rest) (List.chain'_cons.mp hch).2
        (fun pr hpr => hbd pr (List.mem_cons_of_mem _ hpr))

/-! ### Lemmas about searchsorted counts on sorted arrays and argmin -/

lemma countP_le_eq_of_sorted_lt : ∀ (l : List ℚ), l.Sorted (· < ·) →
    ∀ (j : ℕ) (hj : j < l.length),
      l.countP (fun g => decide (g ≤ l[j])) = j + 1
  | [], _, j, hj => absurd hj (by simp)
  | x :: xs, hs, 0, _ => by
    rw [List.countP_cons]
    have h0 : xs.countP (fun g => decide (g ≤ x)) = 0 :=
      List.countP_eq_zero.mpr fun a ha => by
        simpa using not_le.mpr ((List.sorted_cons.mp hs).1 a ha)
    simp [h0]
  | x :: xs, hs, j + 1, hj => by
    have hj1 : j < xs.length := by simpa using hj
    have hx : x < xs[j] := (List.sorted_cons.mp hs).1 _ (List.get_mem xs j hj1)
    have ih := countP_le_eq_of_sorted_lt xs (List.sorted_cons.mp hs).2 j hj1
    simp only [List.getElem_cons_succ, List.countP_cons, ih, decide_eq_true_eq]
    rw [if_pos hx.le]

lemma countP_lt_eq_of_sorted_lt : ∀ (l : List ℚ), l.Sorted (· < ·) →
    ∀ (j : ℕ) (hj : j < l.length),
      l.countP (fun g => decide (g < l[j])) = j
  | [], _, j, hj => absurd hj (by simp)
  | x :: xs, hs, 0, _ => by
    rw [List.countP_cons]
    have h0 : xs.countP (fun g => decide (g < x)) = 0 :=
      List.countP_eq_zero.mpr fun a ha => by
        simpa using not_lt.mpr (le_of_lt ((List.sorted_cons.mp hs).1 a ha))
    simp [h0]
  | x :: xs, hs, j + 1, hj => by
    have hj1 : j < xs.length := by simpa using hj
    have hx : x < xs[j] := (List.sorted_cons.mp hs).1 _ (List.get_mem xs j hj1)
    have ih := countP_lt_eq_of_sorted_lt xs (List.sorted_cons.mp hs).2 j hj1
    simp only [List.getElem_cons_succ, List.countP_cons, ih, decide_eq_true_eq]
    rw [if_pos hx]

lemma get_le_of_lt_countP : ∀ (l : List ℚ), l.Sorted (· ≤ ·) → ∀ (f : ℚ)
    (i : ℕ) (hi : i < l.length), i < l.countP (fun g => decide (g ≤ f)) → l[i] ≤ f
  | [], _, _, i, hi, _ => absurd hi (by simp)
  | x :: xs, hs, f, 0, _, hcnt => by
    by_contra hxf
    have h0 : (x :: xs).countP (fun g => decide (g ≤ f)) = 0 :=
      List.countP_eq_zero.mpr fun a ha => by
        rcases List.mem_cons.mp ha with rfl | ha1
        · simpa using hxf
        · have hle := (List.sorted_cons.mp hs).1 a ha1
          simp only [List.getElem_cons_zero] at hxf
          simpa using fun haf => hxf (le_trans hle haf)
    omega
  | x :: xs, hs, f, i + 1, hi, hcnt => by
    simp only [List.getElem_cons_succ]
    refine get_le_of_lt_countP xs (List.sorted_cons.mp hs).2 f i (by simpa using hi) ?_
    rw [List.countP_cons] at hcnt
    split at hcnt
    · omega
    · -- the head does not satisfy `· ≤ f`, so nothing in the sorted tail does
      rename ¬_ = true => hx
      have h0 : xs.countP (fun g => decide (g ≤ f)) = 0 :=
        List.countP_eq_zero.mpr fun a ha => by
          have hle := (List.sorted_cons.mp hs).1 a ha
          simp only [decide_eq_true_eq] at hx ⊢
          exact fun haf => hx (le_trans hle haf)
      omega

lemma le_get_of_countP_le : ∀ (l : List ℚ), l.Sorted (· ≤ ·) → ∀ (f : ℚ)
    (i : ℕ) (hi : i < l.length), l.countP (fun g => decide (g < f)) ≤ i → f ≤ l[i]
  | [], _, _, i, hi, _ => absurd hi (by simp)
  | x :: xs, hs, f, 0, _, hcnt => by
    rw [List.countP_cons] at hcnt
    simp only [List.getElem_cons_zero]
    by_contra hxf
    simp [not_le.mp hxf] at hcnt
  | x :: xs, hs, f, i + 1, hi, hcnt => by
    simp only [List.getElem_cons_succ]
    rw [List.countP_cons] at hcnt
    by_cases hx : x < f
    · refine le_get_of_countP_le xs (List.sorted_cons.mp hs).2 f i (by simpa using hi) ?_
      simp [hx] at hcnt
      omega
    · exact le_trans (not_lt.mp hx) ((List.sorted_cons.mp hs).1 _ (List.getElem_mem _))

lemma selMinStep_foldl_mem (f : ℚ → ℚ) : ∀ (l : List ℚ) (acc : Option ℚ) (v : ℚ),
    l.foldl (selMinStep f) acc = some v → v ∈ l ∨ acc = some v
  | [], _, _, h => .inr h
  | c :: l, acc, v, h => by
    rcases selMinStep_foldl_mem f l (selMinStep f acc c) v h with hmem | hstep
    · exact .inl (List.mem_cons_of_mem _ hmem)
    · cases acc with
      | none =>
        simp only [selMinStep] at hstep
        injection hstep with h1
        exact .inl (h1 ▸ List.mem_cons_self _ _)
      | some b =>
        simp only [selMinStep] at hstep
        by_cases hlt : f c < f b
        · rw [if_pos hlt] at hstep
          injection hstep with h1
          exact .inl (h1 ▸ List.mem_cons_self _ _)
        · rw [if_neg hlt] at hstep
          exact .inr hstep

lemma selectMinBy_mem (f : ℚ → ℚ) (l : List ℚ) (v : ℚ)
    (h : selectMinBy f l = some v) : v ∈ l := by
  rcases selMinStep_foldl_mem f l none v h with hm | hacc
  · exact hm
  · simp at hacc

/-! ### Monotonicity of the spec-modelled detection mask (claim C3) -/

lemma length_erode (s : List Bool) : (erode s).length = s.length := by
  simp [erode]

lemma erode_getD (s : List Bool) (k : ℕ) (hk : k < s.length) :
    (erode s).getD k false =
      (((decide (0 < k) && s.getD (k - 1) false) && s.getD k false) &&
        s.getD (k + 1) false) := by
  unfold erode
  exact getD_map_range _ _ _ hk

lemma length_erode_iter (k : ℕ) (s : List Bool) : (erode^[k] s).length = s.length := by
  induction k generalizing s with
  | zero => rfl
  | succ k ih => rw [Function.iterate_succ_apply, ih, length_erode]

lemma length_specCleanMask (m : List Bool) : (specCleanMask m).length = m.length := by
  rw [specCleanMask, length_dilate, length_erode_iter, length_dilate_iter]

lemma getD_true_lt_length (m : List Bool) (i : ℕ) (h : m.getD i false = true) :
    i < m.length := by
  by_contra hge
  rw [List.getD_eq_default _ _ (le_of_not_lt hge)] at h
  exact Bool.false_ne_true h

lemma dilate_mono (m1 m2 : List Bool) (hlen : m1.length = m2.length)
    (h : ∀ i, m1.getD i false = true → m2.getD i false = true) :
    ∀ i, (dilate m1).getD i false = true → (dilate m2).getD i false = true := by
  intro i hi
  have hi1 : i < m1.length := by
    have := getD_true_lt_length _ _ hi
    rwa [length_dilate] at this
  rw [dilate_getD m1 i hi1] at hi
  rw [dilate_getD m2 i (hlen ▸ hi1)]
  simp only [Bool.or_eq_true, Bool.and_eq_true, decide_eq_true_eq] at hi ⊢
  rcases hi with (⟨hp, hv⟩ | hv) | hv
  · exact Or.inl (Or.inl ⟨hp, h _ hv⟩)
  · exact Or.inl (Or.inr (h _ hv))
  · exact Or.inr (h _ hv)

lemma erode_mono (m1 m2 : List Bool) (hlen : m1.length = m2.length)
    (h : ∀ i, m1.getD i false = true → m2.getD i false = true) :
    ∀ i, (erode m1).getD i false = true → (erode m2).getD i false = true := by
  intro i hi
  have hi1 : i < m1.length := by
    have := getD_true_lt_length _ _ hi
    rwa [length_erode] at this
  rw [erode_getD m1 i hi1] at hi
  rw [erode_getD m2 i (hlen ▸ hi1)]
  simp only [Bool.and_eq_true, decide_eq_true_eq] at hi ⊢
  exact ⟨⟨⟨hi.1.1.1, h _ hi.1.1.2⟩, h _ hi.1.2⟩, h _ hi.2⟩

lemma dilate_iter_mono (k : ℕ) : ∀ (m1 m2 : List Bool), m1.length = m2.length →
    (∀ i, m1.getD i false = true → m2.getD i false = true) →
    ∀ i, (dilate^[k] m1).getD i false = true → (dilate^[k] m2).getD i false = true := by
  induction k with
  | zero => intro m1 m2 _ h; simpa using h
  | succ k ih =>
    intro m1 m2 hlen h
    rw [Function.iterate_succ_apply, Function.iterate_succ_apply]
    exact ih (dilate m1) (dilate m2) (by rw [length_dilate, length_dilate, hlen])
      (dilate_mono m1 m2 hlen h)

lemma erode_iter_mono (k : ℕ) : ∀ (m1 m2 : List Bool), m1.length = m2.length →
    (∀ i, m1.getD i false = true → m2.getD i false = true) →
    ∀ i, (erode^[k] m1).getD i false = true → (erode^[k] m2).getD i false = true := by
  induction k with
  | zero => intro m1 m2 _ h; simpa using h
  | succ k ih =>
    intro m1 m2 hlen h
    rw [Function.iterate_succ_apply, Function.iterate_succ_apply]
    exact ih (erode m1) (erode m2) (by rw [length_erode, length_erode, hlen])
      (erode_mono m1 m2 hlen h)

lemma specCleanMask_mono (m1 m2 : List Bool) (hlen : m1.length = m2.length)
    (h : ∀ i, m1.getD i false = true → m2.getD i false = true) :
    ∀ i, (specCleanMask m1).getD i false = true →
      (specCleanMask m2).getD i false = true := by
  unfold specCleanMask
  have h8 := dilate_iter_mono 8 m1 m2 hlen h
  have h9 := erode_iter_mono 9 _ _
    (by rw [length_dilate_iter, length_dilate_iter, hlen]) h8
  exact dilate_mono _ _
    (by rw [length_erode_iter, length_erode_iter, length_dilate_iter,
      length_dilate_iter, hlen]) h9

lemma setEdgesFalse_getD_true (m : List Bool) (i : ℕ) :
    (setEdgesFalse m).getD i false = true ↔
      m.getD i false = true ∧ i ≠ 0 ∧ i ≠ m.length - 1 := by
  by_cases hilen : i < m.length
  · have hlen2 : i < ((m.set 0 false).set (m.length - 1) false).length := by
      simpa using hilen
    unfold setEdgesFalse
    rw [List.getD_eq_getElem _ _ hlen2, List.getElem_set, List.getElem_set,
      List.getD_eq_getElem _ _ hilen]
    constructor
    · intro h
      split at h
      · exact absurd h (by simp)
      · split at h
        · exact absurd h (by simp)
        · refine ⟨h, ?_, ?_⟩ <;> omega
    · intro ⟨hv, h0, hl⟩
      rw [if_neg (by omega), if_neg (by omega)]
      exact hv
  · constructor
    · intro h
      exfalso
      have hlt := getD_true_lt_length _ _ h
      simp only [setEdgesFalse, List.length_set] at hlt
      omega
    · intro ⟨hv, _, _⟩
      exact absurd (getD_true_lt_length _ _ hv) hilen

lemma setEdgesFalse_mono (m1 m2 : List Bool) (hlen : m1.length = m2.length)
    (h : ∀ i, m1.getD i false = true → m2.getD i false = true) :
    ∀ i, (setEdgesFalse m1).getD i false = true →
      (setEdgesFalse m2).getD i false = true := by
  intro i hi
  rw [setEdgesFalse_getD_true] at hi ⊢
  exact ⟨h _ hi.1, hi.2.1, hlen ▸ hi.2.2⟩

lemma sorted_getD_mono (s : List ℚ) (hs : s.Sorted (· ≤ ·)) (i j : ℕ) (hij : i ≤ j)
    (hj : j < s.length) : s.getD i 0 ≤ s.getD j 0 := by
  rw [List.getD_eq_getElem _ _ (lt_of_le_of_lt hij hj), List.getD_eq_getElem _ _ hj]
  rcases eq_or_lt_of_le hij with rfl | hlt
  · exact le_rfl
  · exact List.pairwise_iff_get.mp hs ⟨i, lt_of_le_of_lt hij hj⟩ ⟨j, hj⟩ hlt

lemma quantileOS_mono_level (l : List ℚ) (lv1 lv2 : ℚ) (h : lv1 ≤ lv2) :
    quantileOS l lv1 ≤ quantileOS l lv2 := by
  rcases eq_or_ne l [] with rfl | hne
  · simp [quantileOS]
  · have hlen : 0 < l.length := List.length_pos.mpr hne
    unfold quantileOS
    apply sorted_getD_mono _ (List.sorted_insertionSort _ l)
    · apply Int.toNat_le_toNat
      refine min_le_min le_rfl (max_le_max le_rfl ?_)
      exact Int.floor_le_floor (mul_le_mul_of_nonneg_right h (by positivity))
    · rw [List.length_insertionSort]
      have h2 : min ((l.length : ℤ) - 1) (max 0 ⌊lv2 * (l.length : ℚ)⌋)
          ≤ (l.length : ℤ) - 1 := min_le_left _ _
      omega

lemma specQuantile_anti (y : List ℚ) (hw : ℕ) (t1 t2 : ℚ) (h12 : t1 ≤ t2) :
    specQuantile y hw (1/t2) ≤ specQuantile y hw (1/t1) := by
  unfold specQuantile
  apply quantileOS_mono_level
  rw [one_div_one_div, one_div_one_div]
  linarith

lemma specRawMask_mono (y : List ℚ) (hw : ℕ) (p1 p2 : ℚ)
    (hq : specQuantile y hw p2 ≤ specQuantile y hw p1) :
    ∀ i, (specRawMask y hw p1).getD i false = true →
      (specRawMask y hw p2).getD i false = true := by
  intro i hi
  have hi1 : i < (specRollingVars y hw).length := by
    have := getD_true_lt_length _ _ hi
    simpa [specRawMask] using this
  unfold specRawMask at hi ⊢
  rw [List.getD_eq_getElem _ _ (by simpa using hi1), List.getElem_map] at hi
  rw [List.getD_eq_getElem _ _ (by simpa using hi1), List.getElem_map]
  cases hrv : (specRollingVars y hw)[i] with
  | none => rw [hrv] at hi; simp at hi
  | some v =>
    rw [hrv] at hi
    simp only [decide_eq_true_eq] at hi ⊢
    exact le_trans hq hi

/-! ### Linearity of the correlation pipeline (claim C8) -/

lemma getD_map_mul (c : ℚ) (l : List ℚ) (j : ℕ) :
    (l.map (fun q => c * q)).getD j 0 = c * l.getD j 0 := by
  rcases lt_or_le j l.length with h | h
  · rw [List.getD_eq_getElem _ _ (by simpa using h), List.getD_eq_getElem _ _ h,
      List.getElem_map]
  · rw [List.getD_eq_default _ _ (by simpa using h), List.getD_eq_default _ _ h,
      mul_zero]

lemma npConvolveFull_map_mul (c : ℚ) (a v : List ℚ) :
    npConvolveFull (a.map (fun q => c * q)) v
      = (npConvolveFull a v).map (fun q => c * q) := by
  unfold npConvolveFull
  rw [List.map_map, List.length_map]
  refine List.map_congr_left fun k _ => ?_
  simp only [Function.comp]
  rw [← List.sum_map_mul_left]
  refine congrArg List.sum (List.map_congr_left fun j _ => ?_)
  rw [getD_map_mul]
  ring

lemma npCorrelateSame_map_mul (c : ℚ) (a v : List ℚ) :
    npCorrelateSame (a.map (fun q => c * q)) v
      = (npCorrelateSame a v).map (fun q => c * q) := by
  unfold npCorrelateSame
  rw [npConvolveFull_map_mul, List.length_map, List.map_take, List.map_drop]

lemma meanQ_map_mul (c : ℚ) (l : List ℚ) :
    meanQ (l.map (fun q => c * q)) = c * meanQ l := by
  unfold meanQ
  rw [List.length_map]
  have hs : (l.map (fun q => c * q)).sum = c * l.sum := by
    have h1 := List.sum_map_mul_left l (fun q => q) c
    simpa using h1
  rw [hs, mul_div_assoc]

lemma popVar_map_mul (c : ℚ) (l : List ℚ) :
    popVar (l.map (fun q => c * q)) = c^2 * popVar l := by
  unfold popVar
  rw [meanQ_map_mul, List.length_map, List.map_map]
  have h1 : ((fun q => (q - c * meanQ l)^2) ∘ fun q => c * q)
      = fun q => c^2 * ((q - meanQ l)^2) := by
    funext q
    simp only [Function.comp]
    ring
  rw [h1, List.sum_map_mul_left l (fun q => (q - meanQ l)^2) (c^2), mul_div_assoc]

lemma lfilterGo_map_mul (b a : List ℚ) (c : ℚ) :
    ∀ (rest xr yr : List ℚ),
      lfilterGo b a (xr.map (fun q => c * q)) (yr.map (fun q => c * q))
          (rest.map (fun q => c * q))
        = (lfilterGo b a xr yr rest).map (fun q => c * q)
  | [], xr, yr => by
    simp only [List.map_nil, lfilterGo]
    rw [List.map_reverse]
  | xi :: rest, xr, yr => by
    have hx : c * xi :: xr.map (fun q => c * q) = (xi :: xr).map (fun q => c * q) := by
      simp
    have hnum1 : ((List.range b.length).map fun k =>
          b.getD k 0 * ((xi :: xr).map (fun q => c * q)).getD k 0).sum
        = c * ((List.range b.length).map fun k =>
          b.getD k 0 * (xi :: xr).getD k 0).sum := by
      rw [← List.sum_map_mul_left]
      refine congrArg List.sum (List.map_congr_left fun k _ => ?_)
      rw [getD_map_mul]
      ring
    have hnum2 : ((List.range (a.length - 1)).map fun k =>
          a.getD (k + 1) 0 * (yr.map (fun q => c * q)).getD k 0).sum
        = c * ((List.range (a.length - 1)).map fun k =>
          a.getD (k + 1) 0 * yr.getD k 0).sum := by
      rw [← List.sum_map_mul_left]
      refine congrArg List.sum (List.map_congr_left fun k _ => ?_)
      rw [getD_map_mul]
      ring
    simp only [List.map_cons, lfilterGo]
    rw [hx, hnum1, hnum2, ← mul_sub, mul_div_assoc, ← List.map_cons]
    exact lfilterGo_map_mul b a c rest (xi :: xr) _

lemma lfilter_map_mul (b a : List ℚ) (c : ℚ) (x : List ℚ) :
    lfilter b a (x.map (fun q => c * q)) = (lfilter b a x).map (fun q => c * q) := by
  unfold lfilter
  have h := lfilterGo_map_mul b a c x [] []
  simpa using h

/-! ### Claim theorems -/

/-- Claim C1: whenever `positions` returns on an equal-length grid/signal
pair (rather than raising), every returned peak index is within
`[0, len(signal))` and the returned sequence is strictly ascending, hence
duplicate-free. -/
theorem positions_indices_bounded_and_ascending (x y : List ℚ) (ps : List ℕ)
    (hxy : x.length = y.length) (h : positions x y = some ps) :
    (∀ p ∈ ps, p < y.length) ∧ ps.Chain' (· < ·) := by
  unfold positions at h
  obtain ⟨prs, hprs, rfl⟩ := Option.map_eq_some'.mp h
  obtain ⟨hb, hch⟩ := positionsPairs_spec x y prs hprs
  constructor
  · intro p hp
    obtain ⟨pr, hpr, rfl⟩ := List.mem_map.mp hp
    have h1 := hb pr hpr
    exact (peakAt_bounds y pr h1.1 (by omega)).2.2
  · refine chain'_map_peakAt y prs hch (fun pr hpr => ?_)
    have h1 := hb pr hpr
    exact (peakAt_bounds y pr h1.1 (by omega)).2.1

/-- Claim C1, witness: the theorem applied to the concrete
`gridA`/`signalA` run, whose result is the peak list `[15]`. -/
theorem positions_indices_bounded_and_ascending_witness :
    (∀ p ∈ [15], p < signalA.length) ∧ List.Chain' (· < ·) [15] :=
  positions_indices_bounded_and_ascending gridA signalA [15] (by decide) (by decide)

/-- Claim C2, amended: each returned peak lies in `[t0, t1)` for its
originating transition pair `(t0, t1)`.  Since a maximal true run of the
mask beginning after position 0 spans `[t0+1, t1+1)`, a returned peak
never coincides with the *last* sample of its island, but it can
coincide with the island's first sample `t0+1` (see the counterexample)
or even the sample `t0` just before the island. -/
theorem positions_peaks_inside_transition_pairs (x y : List ℚ) (prs : List (ℕ × ℕ))
    (hxy : x.length = y.length) (h : positionsPairs x y = some prs) :
    positions x y = some (prs.map (peakAt y)) ∧
    ∀ pr ∈ prs, pr.1 ≤ peakAt y pr ∧ peakAt y pr < pr.2 := by
  refine ⟨by rw [positions, h]; rfl, fun pr hpr => ?_⟩
  have h1 := (positionsPairs_spec x y prs h).1 pr hpr
  have h2 := peakAt_bounds y pr h1.1 (by omega)
  exact ⟨h2.1, h2.2.1⟩

/-- Claim C2 (amended), witness: on `gridA`/`signalA` the single
transition pair is `(14, 24)` and the returned peak 15 lies in
`[14, 24)`. -/
theorem positions_peaks_inside_transition_pairs_witness :
    positions gridA signalA = some ([(14, 24)].map (peakAt signalA)) ∧
    ∀ pr ∈ [(14, 24)], pr.1 ≤ peakAt signalA pr ∧ peakAt signalA pr < pr.2 :=
  positions_peaks_inside_transition_pairs gridA signalA [(14, 24)] (by decide) (by decide)

/-- Claim C2, counterexample: on `gridA`/`signalA`, `positions` returns
the single peak index 15, the cleaned mask has the single island
`[15, 25)`, and hence the returned peak coincides with the very first
sample of its originating island — the claimed edge-rejection does not
exist in the code. -/
theorem positions_peak_on_island_first_sample :
    positions gridA signalA = some [15] ∧
    (detectionMask gridA signalA).map trueRuns = some [(15, 25)] := by
  decide

/-- Claim C3, counterexample (against the spec-modelled
`peaks_positions`, absent from src/detection.py): for the fixed pair
`gridB`/`signalB`, the stricter caller threshold `6/41` yields two peaks
while the looser `7/41` yields only one — the flagged region grows, two
islands merge, and the peak count drops. -/
theorem peak_count_not_monotone_in_threshold :
    (6 : ℚ)/41 < 7/41 ∧
    (findLinesCall gridB signalB (6/41)).length = 2 ∧
    (findLinesCall gridB signalB (7/41)).length = 1 := by
  decide

/-- Claim C3, amended (against the spec-modelled `peaks_positions`): the
detection mask is pointwise monotone in the caller-supplied threshold —
every sample flagged (after quantile thresholding, the morphological
cleaning and the boundary clearing) at the stricter threshold `t1` is
also flagged at any looser threshold `t2 ≥ t1`, because the quantile
cutoff widens monotonically with the threshold and dilation/erosion are
monotone operators.  The *number of peaks* is not monotone: a larger
flagged region can merge two islands into one (see the counterexample). -/
theorem flagged_samples_monotone_in_threshold (x y : List ℚ) (t1 t2 : ℚ)
    (h1 : 0 < t1) (h12 : t1 ≤ t2) :
    ∀ i, (setEdgesFalse (specCleanMask
        (specRawMask y (specHalfWindow x) (1/t1)))).getD i false = true →
      (setEdgesFalse (specCleanMask
        (specRawMask y (specHalfWindow x) (1/t2)))).getD i false = true := by
  have hraw := specRawMask_mono y (specHalfWindow x) (1/t1) (1/t2)
    (specQuantile_anti y (specHalfWindow x) t1 t2 h12)
  have hlenraw : (specRawMask y (specHalfWindow x) (1/t1)).length
      = (specRawMask y (specHalfWindow x) (1/t2)).length := by
    simp [specRawMask]
  have hclean := specCleanMask_mono _ _ hlenraw hraw
  exact setEdgesFalse_mono _ _
    (by rw [length_specCleanMask, length_specCleanMask, hlenraw]) hclean

/-- Claim C3 (amended), witness: on `gridB`/`signalB`, sample 11 is
flagged at the stricter caller threshold `6/41`, and the theorem
transports the flag to the looser threshold `7/41`. -/
theorem flagged_samples_monotone_in_threshold_witness :
    ((0 : ℚ) < 6/41 ∧ (6 : ℚ)/41 ≤ 7/41) ∧
    (setEdgesFalse (specCleanMask
        (specRawMask signalB (specHalfWindow gridB) (1/((6:ℚ)/41))))).getD 11 false = true ∧
    (setEdgesFalse (specCleanMask
        (specRawMask signalB (specHalfWindow gridB) (1/((7:ℚ)/41))))).getD 11 false = true :=
  ⟨⟨by decide, by decide⟩, by decide,
   flagged_samples_monotone_in_threshold gridB signalB (6/41) (7/41)
     (by decide) (by decide) 11 (by decide)⟩

/-- Claim C4, counterexample: with stored peaks `[10, 20, 30]` and query
frequency 25 (strictly between two stored peaks), `prev_found_line`
returns 10 — the *second* largest stored frequency below the query, not
the claimed closest one (20) — and `next_found_line` returns 25 unchanged
instead of the claimed 30. -/
theorem prev_next_found_line_skip_between_peaks :
    prev_found_line [[10, 20, 30]] 25 = 10 ∧
    prev_found_line [[10, 20, 30]] 25 ≠ 20 ∧
    next_found_line [[10, 20, 30]] 25 = 25 ∧
    next_found_line [[10, 20, 30]] 25 ≠ 30 := by
  decide

/-- Claim C4, amended: `prev_found_line` keeps, per channel, the stored
entry at index `(#entries ≤ current) - 2` (when valid and different from
`current`), and `next_found_line` the entry at `(#entries < current) + 1`.
When `current` is itself a stored frequency of a strictly sorted channel,
these are exactly the closest stored frequencies strictly below and
strictly above `current`; the claimed behaviour fails only for a query
strictly between stored peaks (see the counterexample). -/
theorem prev_next_found_line_on_stored_peak (data : List ℚ)
    (hs : data.Sorted (· < ·)) (j : ℕ) (hj : j < data.length) :
    (∀ h1 : 1 ≤ j, prev_found_line [data] data[j] = data.get ⟨j - 1, by omega⟩) ∧
    (∀ h2 : j + 1 < data.length, next_found_line [data] data[j] = data.get ⟨j + 1, h2⟩) := by
  have hss : ssRight data data[j] = j + 1 := by
    unfold ssRight
    exact countP_le_eq_of_sorted_lt data hs j hj
  have hsl : ssLeft data data[j] = j := by
    unfold ssLeft
    exact countP_lt_eq_of_sorted_lt data hs j hj
  constructor
  · intro hj1
    have hjm : j - 1 < data.length := by omega
    have hne : data.get ⟨j - 1, hjm⟩ ≠ data[j] :=
      ne_of_lt (List.pairwise_iff_get.mp hs ⟨j - 1, hjm⟩ ⟨j, hj⟩ (by simp; omega))
    have hcand : prevCandidate data data[j] = some (data.get ⟨j - 1, hjm⟩) := by
      unfold prevCandidate
      rw [hss]
      have hidx : (((j + 1 : ℕ) : ℤ) - 2).toNat = j - 1 := by omega
      rw [hidx, List.getD_eq_getElem data 0 hjm]
      rw [if_pos ⟨by omega, by omega, hne⟩]
      rfl
    unfold prev_found_line
    rw [show List.filterMap (fun d => prevCandidate d data[j]) [data]
          = [data.get ⟨j - 1, hjm⟩] by simp [List.filterMap_cons, hcand]]
    rfl
  · intro hj2
    have hne : data.get ⟨j + 1, hj2⟩ ≠ data[j] :=
      (ne_of_lt (List.pairwise_iff_get.mp hs ⟨j, hj⟩ ⟨j + 1, hj2⟩ (by simp))).symm
    have hcand : nextCandidate data data[j] = some (data.get ⟨j + 1, hj2⟩) := by
      unfold nextCandidate
      rw [hsl]
      rw [List.getD_eq_getElem data 0 hj2]
      rw [if_pos ⟨hj2, hne⟩]
      rfl
    unfold next_found_line
    rw [show List.filterMap (fun d => nextCandidate d data[j]) [data]
          = [data.get ⟨j + 1, hj2⟩] by simp [List.filterMap_cons, hcand]]
    rfl

/-- Claim C4 (amended), witness: on the stored peaks `[10, 20, 30]` with
`current = 20` (a stored peak), the navigation helpers return the
adjacent peaks 10 and 30. -/
theorem prev_next_found_line_on_stored_peak_witness :
    prev_found_line [[10, 20, 30]] 20 = 10 ∧
    next_found_line [[10, 20, 30]] 20 = 30 := by
  have h := prev_next_found_line_on_stored_peak [10, 20, 30] (by decide) 1 (by decide)
  exact ⟨h.1 (by decide), h.2 (by decide)⟩

/-- Claim C10: for stored peak-frequency channels that are each sorted
non-decreasingly and any query frequency `f`, `prev_found_line` returns
either `f` itself or a stored frequency strictly below `f`, and
`next_found_line` returns either `f` or a stored frequency strictly above
`f`; in particular neither ever returns NaN or a stored frequency equal
to `f` (NaN candidates are filtered before selection, and the embedding
returns a rational in every case). -/
theorem prev_next_found_line_invariants (lines : List (List ℚ)) (f : ℚ)
    (hs : ∀ d ∈ lines, d.Sorted (· ≤ ·)) :
    (prev_found_line lines f = f ∨
      ((∃ d ∈ lines, prev_found_line lines f ∈ d) ∧ prev_found_line lines f < f)) ∧
    (next_found_line lines f = f ∨
      ((∃ d ∈ lines, next_found_line lines f ∈ d) ∧ f < next_found_line lines f)) := by
  constructor
  · cases hsel : selectMinBy (fun c => f - c) (lines.filterMap (fun d => prevCandidate d f)) with
    | none => left; unfold prev_found_line; rw [hsel]
    | some v =>
      have heq : prev_found_line lines f = v := by unfold prev_found_line; rw [hsel]
      right
      rw [heq]
      obtain ⟨d, hd, hcand⟩ := List.mem_filterMap.mp (selectMinBy_mem _ _ _ hsel)
      unfold prevCandidate at hcand
      split at hcand
      case isFalse => exact absurd hcand (by simp)
      case isTrue hcond =>
        obtain ⟨hge, hlt, hne⟩ := hcond
        injection hcand with h1
        have hlen : ((ssRight d f : ℤ) - 2).toNat < d.length := by omega
        have hcnt : ((ssRight d f : ℤ) - 2).toNat < d.countP (fun g => decide (g ≤ f)) := by
          have h2 : ((ssRight d f : ℤ) - 2).toNat < ssRight d f := by omega
          exact h2
        have hle := get_le_of_lt_countP d (hs d hd) f _ hlen hcnt
        rw [List.getD_eq_getElem d 0 hlen] at h1 hne
        subst h1
        exact ⟨⟨d, hd, List.get_mem d _ hlen⟩, lt_of_le_of_ne hle hne⟩
  · cases hsel : selectMinBy (fun c => c - f) (lines.filterMap (fun d => nextCandidate d f)) with
    | none => left; unfold next_found_line; rw [hsel]
    | some v =>
      have heq : next_found_line lines f = v := by unfold next_found_line; rw [hsel]
      right
      rw [heq]
      obtain ⟨d, hd, hcand⟩ := List.mem_filterMap.mp (selectMinBy_mem _ _ _ hsel)
      unfold nextCandidate at hcand
      split at hcand
      case isFalse => exact absurd hcand (by simp)
      case isTrue hcond =>
        obtain ⟨hlt, hne⟩ := hcond
        injection hcand with h1
        have hcnt : d.countP (fun g => decide (g < f)) ≤ ssLeft d f + 1 := by
          have h2 : ssLeft d f ≤ ssLeft d f + 1 := Nat.le_succ _
          exact h2
        have hge := le_get_of_countP_le d (hs d hd) f _ hlt hcnt
        rw [List.getD_eq_getElem d 0 hlt] at h1 hne
        subst h1
        exact ⟨⟨d, hd, List.get_mem d _ hlt⟩, lt_of_le_of_ne hge (Ne.symm hne)⟩

/-- Claim C10, witness: the invariant applied to a concrete sorted store
and a query strictly between two stored peaks. -/
theorem prev_next_found_line_invariants_witness :
    (prev_found_line [[10, 20, 30]] 25 = 25 ∨
      ((∃ d ∈ [[10, 20, 30]], prev_found_line [[10, 20, 30]] 25 ∈ d) ∧
        prev_found_line [[10, 20, 30]] 25 < 25)) ∧
    (next_found_line [[10, 20, 30]] 25 = 25 ∨
      ((∃ d ∈ [[10, 20, 30]], next_found_line [[10, 20, 30]] 25 ∈ d) ∧
        25 < next_found_line [[10, 20, 30]] 25)) :=
  prev_next_found_line_invariants [[10, 20, 30]] 25 (by decide)

/-- Claim C5, counterexample: the cleaning `positions` actually applies
(`remove_spikes`, dilation ×4, `remove_spikes`) differs from the claimed
dilate ×8 / erode ×9 / dilate ×1 pipeline already on a 30-sample mask
with one 3-sample island: the former dilates it to 11 samples, the latter
returns it unchanged. -/
theorem mask_cleaning_is_not_dilate_erode_dilate :
    cleanedMask maskA ≠ specCleanMask maskA ∧
    trueRuns (cleanedMask maskA) = [(6, 17)] ∧
    trueRuns (specCleanMask maskA) = [(10, 13)] := by
  decide

/-- Claim C5, amended: the mask cleaning `positions` performs is one
`remove_spikes` pass, four binary-dilation iterations with the 1-D
one-neighbour structuring element, and a second `remove_spikes` pass; no
erosion is applied, and the second pass never clears a set sample of the
dilated mask (on a dilated mask it can only fill isolated one-sample
gaps), so the cleaned mask contains the 4-fold dilation of the
spike-removed raw mask. -/
theorem cleanedMask_contains_dilation (m : List Bool) :
    cleanedMask m = removeSpikes (dilate^[4] (removeSpikes m)) ∧
    ∀ i, (dilate^[4] (removeSpikes m)).getD i false = true →
      (cleanedMask m).getD i false = true := by
  refine ⟨rfl, fun i hi => ?_⟩
  rw [cleanedMask]
  have h4 : dilate^[4] (removeSpikes m) = dilate (dilate^[3] (removeSpikes m)) :=
    Function.iterate_succ_apply' dilate 3 _
  rw [h4] at hi ⊢
  exact removeSpikes_dilate_getD _ i hi

/-- Claim C6: on the constant measured signal `[3, 3]` against the
template `[2]` the raw correlation is the constant array `[6, 6]`, its
standard deviation is zero, and the unguarded in-place division
`_corr /= np.std(_corr)` computes `0/0` sample-wise: the result is the
NaN-filled array (`none`), not a zero or unmodified array, for any filter
coefficients. -/
theorem correlation_zero_variance_yields_nan :
    correlation [1] [1] [2] [0, 1] [3, 3] = none ∧
    popVar (npCorrelateSame [3, 3] [2]) = 0 := by
  decide

/-- Claim C8: in exact arithmetic, scaling the measured signal by any
positive constant leaves the output of `correlation` unchanged: the raw
correlation is linear in the measured signal, the mean/standard-deviation
normalization cancels a positive factor exactly, and the causal filter is
linear. -/
theorem correlation_scale_invariant (b a model x y : List ℚ) (c : ℚ) (hc : 0 < c) :
    correlation b a model x (y.map (fun q => c * q)) = correlation b a model x y := by
  rcases eq_or_ne y [] with rfl | hy
  · rfl
  · have hraw := npCorrelateSame_map_mul c y model
    have hvar : popVar (npCorrelateSame (y.map (fun q => c * q)) model)
        = c^2 * popVar (npCorrelateSame y model) := by
      rw [hraw, popVar_map_mul]
    unfold correlation
    rw [if_neg (by simpa using hy), if_neg hy]
    by_cases hv : popVar (npCorrelateSame y model) = 0
    · rw [if_pos (by rw [hvar, hv]; ring), if_pos hv]
    · have hv2 : popVar (npCorrelateSame (y.map (fun q => c * q)) model) ≠ 0 := by
        rw [hvar]
        exact mul_ne_zero (pow_ne_zero 2 (ne_of_gt hc)) hv
      rw [if_neg hv2, if_neg hv]
      congr 1
      have hcent : ((npCorrelateSame y model).map (fun q => c * q)).map
            (fun q => q - meanQ ((npCorrelateSame y model).map (fun q => c * q)))
          = ((npCorrelateSame y model).map
              (fun q => q - meanQ (npCorrelateSame y model))).map (fun q => c * q) := by
        rw [meanQ_map_mul, List.map_map, List.map_map]
        refine List.map_congr_left fun q _ => ?_
        simp only [Function.comp]
        ring
      rw [hraw, hcent, lfilter_map_mul, List.map_map,
        popVar_map_mul c (npCorrelateSame y model)]
      refine List.map_congr_left fun g _ => ?_
      simp only [Function.comp]
      rw [abs_mul, abs_of_pos hc,
        show c * g * (c * |g|) = c^2 * (g * |g|) from by ring,
        mul_div_mul_left _ _ (pow_ne_zero 2 (ne_of_gt hc))]

/-- Claim C8, witness: doubling the measured signal `[1, 3]` leaves the
correlation output unchanged. -/
theorem correlation_scale_invariant_witness :
    (0 : ℚ) < 2 ∧ correlation [1] [1] [1] [0, 1] ([1, 3].map (fun q => (2:ℚ) * q))
      = correlation [1] [1] [1] [0, 1] [1, 3] :=
  ⟨by decide, correlation_scale_invariant [1] [1] [1] [0, 1] [1, 3] 2 (by decide)⟩

/-- Claim C7: degenerate input returns an empty result and never raises:
`correlation` on an empty measured signal returns the empty array, and
`positions` on any equal-length grid/signal pair of length 0 or 1 returns
the empty peak array (it does not reach any raising operation). -/
theorem degenerate_inputs_return_empty :
    (∀ b a model x : List ℚ, correlation b a model x [] = some []) ∧
    (∀ x y : List ℚ, x.length = y.length → x.length ≤ 1 → positions x y = some []) := by
  constructor
  · intro b a model x
    rfl
  · intro x y hlen hle
    rcases x with _ | ⟨xa, _ | ⟨xa2, xs⟩⟩
    · simp [positions, positionsPairs]
    · rcases y with _ | ⟨yb, _ | ⟨yb2, ys⟩⟩
      · simp at hlen
      · have h0 : coreAt [xa] [yb] 0 = .ok (none, none) := by
          unfold coreAt
          rw [if_pos]
          rw [sub_self]
          norm_num [LINE_WIDTH]
        have h1 : coreLists [xa] [yb] = .ok ([none], [none]) := by
          have h2 : coreListsGo [xa] [yb] [0] = (coreAt [xa] [yb] 0).bind fun c =>
              (coreListsGo [xa] [yb] []).map fun rest => (c.1 :: rest.1, c.2 :: rest.2) := rfl
          show coreListsGo [xa] [yb] (List.range 1) = .ok ([none], [none])
          rw [show List.range 1 = [0] from rfl, h2, h0]
          rfl
        have hd : detectionMask [xa] [yb] = some [false] := by
          unfold detectionMask
          rw [h1]
          show some (cleanedMask (padMask 1 (matchRaw [none] [none]))) = some [false]
          decide
        have h3 : positionsPairs [xa] [yb] = some [] := by
          unfold positionsPairs
          rw [if_neg (by simp), hd]
          show chunkPairs (transitionsOf [false]) = some []
          decide
        unfold positions
        rw [h3]
        rfl
      · simp at hlen
    · simp at hle

/-- Claim C7, witness: concrete degenerate inputs. -/
theorem degenerate_inputs_return_empty_witness :
    correlation [1] [2] [3] [0, 1] [] = some [] ∧ positions [5] [7] = some [] :=
  ⟨degenerate_inputs_return_empty.1 [1] [2] [3] [0, 1],
   degenerate_inputs_return_empty.2 [5] [7] rfl (by decide)⟩

/-- Claim C9, amended: `butter_bandpass` selects the filter family by the
Nyquist-normalized cutoffs `low = low_cut/(0.5*fs)` and
`high = high_cut/(0.5*fs)`: band-pass when `0 < low` and `high < fs`;
HIGH-pass (at `low`) when `0 < low` and `high ≥ fs`; LOW-pass (at `high`)
when `low ≤ 0` and `high < fs`; and the fully degenerate combination
`low ≤ 0` and `high ≥ fs` raises `ValueError` (fail-fast), all at order
5. -/
theorem butterBandpassKind_selection (fs low_cut high_cut : ℚ) :
    ((0 < low_cut / ((1/2) * fs) ∧ high_cut / ((1/2) * fs) < fs) →
      butterBandpassKind fs low_cut high_cut =
        .ok (.bandpass (low_cut / ((1/2) * fs)) (high_cut / ((1/2) * fs)))) ∧
    ((0 < low_cut / ((1/2) * fs) ∧ fs ≤ high_cut / ((1/2) * fs)) →
      butterBandpassKind fs low_cut high_cut =
        .ok (.highpass (low_cut / ((1/2) * fs)))) ∧
    ((low_cut / ((1/2) * fs) ≤ 0 ∧ high_cut / ((1/2) * fs) < fs) →
      butterBandpassKind fs low_cut high_cut =
        .ok (.lowpass (high_cut / ((1/2) * fs)))) ∧
    ((low_cut / ((1/2) * fs) ≤ 0 ∧ fs ≤ high_cut / ((1/2) * fs)) →
      butterBandpassKind fs low_cut high_cut = .error ()) := by
  unfold butterBandpassKind
  refine ⟨fun h => ?_, fun h => ?_, fun h => ?_, fun h => ?_⟩
  · rw [if_pos h]
  · rw [if_neg (fun hc => absurd hc.2 (not_lt.mpr h.2)), if_pos h]
  · rw [if_neg (fun hc => absurd hc.1 (not_lt.mpr h.1)),
        if_neg (fun hc => absurd hc.1 (not_lt.mpr h.1)), if_pos h]
  · rw [if_neg (fun hc => absurd hc.1 (not_lt.mpr h.1)),
        if_neg (fun hc => absurd hc.1 (not_lt.mpr h.1)),
        if_neg (fun hc => absurd hc.2 (not_lt.mpr h.2))]

/-- Claim C9 (amended), witness: `fs = 1`, `low_cut = 1/100`,
`high_cut = 3` — both normalized cutoffs positive and the upper one above
`fs` — selects the high-pass filter. -/
theorem butterBandpassKind_selection_witness :
    (0 < (1/100 : ℚ) / ((1/2) * 1) ∧ (1 : ℚ) ≤ 3 / ((1/2) * 1)) ∧
    butterBandpassKind 1 (1/100) 3 = .ok (.highpass ((1/100 : ℚ) / ((1/2) * 1))) :=
  ⟨⟨by decide, by decide⟩,
   (butterBandpassKind_selection 1 (1/100) 3).2.1 ⟨by decide, by decide⟩⟩

/-- Claim C9, counterexample: with `fs = 1` and cutoffs
`low_cut = 0`, `high_cut = 3/10` (lower cutoff ≤ 0, upper cutoff below
`fs`), `butter_bandpass` selects a LOW-pass filter at the normalized
upper cutoff — not the high-pass filter the claim associates with a
non-positive lower cutoff. -/
theorem butter_lowpass_when_low_cutoff_nonpositive :
    butterBandpassKind 1 0 (3/10) = .ok (.lowpass (3/5)) ∧
    butterBandpassKind 1 0 (3/10) ≠ .ok (.highpass 0) ∧
    butterBandpassKind 1 0 (3/10) ≠ .ok (.highpass (3/5)) := by
  decide

end FsViewer
